import Mathlib

/-!
Shallow embedding of the ViRDi resource-routing engine
(`src/app/services/buffer.py`, `src/app/services/prosumer.py`,
`src/app/services/client.py`, `src/virdi/api/endpoints/consumers.py`)
together with theorems settling the specification claims.

Amounts are Python integers, embedded as `Int`.  The asyncio locks only
serialise operations; each operation's effect on the shared counters is a
pure state transformation, which is what is embedded here.
-/

namespace Virdi

/-- Embeds class `Buffer` of `buffer.py`: a pair `(limit, amount)`. -/
structure Buffer where
  limit : Int
  amount : Int
deriving Repr, DecidableEq

/-- Embeds `Buffer.add` (buffer.py lines 59-79): `self._amount += amount;
return self._amount < self._limit`.  The full amount is always added, even
past the limit; the boolean reports whether the buffer is not yet full. -/
def Buffer.add (b : Buffer) (n : Int) : Buffer × Bool :=
  ({ b with amount := b.amount + n }, decide (b.amount + n < b.limit))

/-- Embeds `Buffer.remove` (buffer.py lines 81-101):
`actual = min(amount, self._amount); self._amount -= actual; return actual`. -/
def Buffer.remove (b : Buffer) (n : Int) : Buffer × Int :=
  let actual := min n b.amount
  ({ b with amount := b.amount - actual }, actual)

/-- Embeds `Buffer.remove_all` (buffer.py lines 103-117):
`self.remove(self.amount)`. -/
def Buffer.remove_all (b : Buffer) : Buffer × Int :=
  b.remove b.amount

/-- Embeds `Buffer.is_full` (buffer.py lines 119-126): `amount >= limit`. -/
def Buffer.is_full (b : Buffer) : Bool :=
  decide (b.limit ≤ b.amount)

/-- A consumer as seen by the Distributor: its buffer, plus whether it is a
member of the `affected_consumers` set accumulated by
`Consumer.distribute` (prosumer.py line 214 and lines 233-234). -/
structure ConsumerState where
  buf : Buffer
  affected : Bool
deriving Repr, DecidableEq

/-- One inner `for` pass of `Consumer.distribute` (prosumer.py lines
227-239), processing the candidates from position `i` on with the
pass-constants `per = remaining // k` and `extra = remaining % k` already
computed.  `rem` is the running `remaining`.  Returns the final `remaining`
and, for each candidate, its updated state together with the retention flag
`actual_amount == amount_to_add` (line 236-237). -/
def distributePass (per extra : Int) : Nat → Int → List ConsumerState → Int × List (ConsumerState × Bool)
  | _, rem, [] => (rem, [])
  | i, rem, c :: cs =>
    let amount_to_add := per + (if (i : Int) < extra then 1 else 0)
    let actual_amount := min (c.buf.limit - c.buf.amount) amount_to_add
    let c' : ConsumerState :=
      ⟨(c.buf.add actual_amount).1, c.affected || decide (0 < actual_amount)⟩
    let rest := distributePass per extra (i + 1) (rem - actual_amount) cs
    (rest.1, (c', decide (actual_amount = amount_to_add)) :: rest.2)

/-- Sum of the assigned shares `per + (1 if j < extra else 0)` for the `k`
positions `i, i+1, ..., i+k-1`; the bookkeeping quantity behind the fact
that one pass of the Distributor assigns exactly `remaining` in total. -/
def sumShares (per extra : Int) : Nat → Nat → Int
  | _, 0 => 0
  | i, k + 1 => (per + (if (i : Int) < extra then 1 else 0)) + sumShares per extra (i + 1) k

theorem distributePass_length (per extra : Int) (i : Nat) (rem : Int)
    (cs : List ConsumerState) :
    (distributePass per extra i rem cs).2.length = cs.length := by
  induction cs generalizing i rem with
  | nil => simp [distributePass]
  | cons c cs ih => simp [distributePass, ih]

theorem sumShares_of_le (per extra : Int) :
    ∀ (k i : Nat), extra ≤ (i : Int) → sumShares per extra i k = per * k := by
  intro k
  induction k with
  | zero => intro i _; simp [sumShares]
  | succ k ih =>
    intro i hi
    rw [sumShares, ih (i + 1) (by push_cast; omega), if_neg (by omega)]
    push_cast
    ring

theorem sumShares_of_mem (per extra : Int) :
    ∀ (k i : Nat), (i : Int) ≤ extra → extra ≤ (i : Int) + k →
      sumShares per extra i k = per * k + (extra - i) := by
  intro k
  induction k with
  | zero => intro i h1 h2; simp [sumShares]; omega
  | succ k ih =>
    intro i h1 h2
    rcases lt_or_le (i : Int) extra with hi | hi
    · rw [sumShares, ih (i + 1) (by push_cast; omega) (by push_cast at h2 ⊢; omega),
        if_pos hi]
      push_cast
      ring
    · have hie : extra = (i : Int) := le_antisymm hi h1
      rw [sumShares, sumShares_of_le per extra k (i + 1) (by push_cast; omega),
        if_neg (by omega), hie]
      push_cast
      ring

theorem distributePass_rem_ge (per extra : Int) (i : Nat) (rem : Int)
    (cs : List ConsumerState) :
    rem - sumShares per extra i cs.length ≤ (distributePass per extra i rem cs).1 := by
  induction cs generalizing i rem with
  | nil => simp [distributePass, sumShares]
  | cons c cs ih =>
    have h := ih (i + 1) (rem - min (c.buf.limit - c.buf.amount) (per + (if (i : Int) < extra then 1 else 0)))
    simp only [distributePass, sumShares, List.length_cons]
    have hmin : min (c.buf.limit - c.buf.amount) (per + (if (i : Int) < extra then 1 else 0)) ≤
        per + (if (i : Int) < extra then 1 else 0) := min_le_right _ _
    omega

theorem distributePass_allRetained (per extra : Int) (i : Nat) (rem : Int)
    (cs : List ConsumerState)
    (h : ∀ p ∈ (distributePass per extra i rem cs).2, p.2 = true) :
    (distributePass per extra i rem cs).1 = rem - sumShares per extra i cs.length := by
  induction cs generalizing i rem with
  | nil => simp [distributePass, sumShares]
  | cons c cs ih =>
    simp only [distributePass, List.mem_cons, sumShares, List.length_cons] at h ⊢
    have hhead := h _ (Or.inl rfl)
    simp only [decide_eq_true_eq] at hhead
    have htail : ∀ p ∈ (distributePass per extra (i + 1)
        (rem - min (c.buf.limit - c.buf.amount) (per + (if (i : Int) < extra then 1 else 0))) cs).2,
        p.2 = true := by
      intro p hp
      exact h p (Or.inr hp)
    have := ih (i + 1)
      (rem - min (c.buf.limit - c.buf.amount) (per + (if (i : Int) < extra then 1 else 0))) htail
    rw [this, hhead]
    ring

theorem distributePass_conserve (per extra : Int) (i : Nat) (rem : Int)
    (cs : List ConsumerState) :
    (distributePass per extra i rem cs).1
      + ((distributePass per extra i rem cs).2.map (fun p => p.1.buf.amount)).sum
      = rem + (cs.map (fun c => c.buf.amount)).sum := by
  induction cs generalizing i rem with
  | nil => simp [distributePass]
  | cons c cs ih =>
    simp only [distributePass, List.map_cons, List.sum_cons, Buffer.add]
    have := ih (i + 1)
      (rem - min (c.buf.limit - c.buf.amount) (per + (if (i : Int) < extra then 1 else 0)))
    omega

theorem distributePass_dropped_full (per extra : Int) (i : Nat) (rem : Int)
    (cs : List ConsumerState) :
    ∀ p ∈ (distributePass per extra i rem cs).2, p.2 = false →
      p.1.buf.amount = p.1.buf.limit := by
  induction cs generalizing i rem with
  | nil => simp [distributePass]
  | cons c cs ih =>
    simp only [distributePass, List.mem_cons]
    rintro p (rfl | hp) hfalse
    · simp only [decide_eq_false_iff_not] at hfalse
      simp only [Buffer.add]
      rcases min_cases (c.buf.limit - c.buf.amount)
          (per + (if (i : Int) < extra then 1 else 0)) with ⟨hmin, _⟩ | ⟨hmin, _⟩
      · rw [hmin]; ring
      · exact absurd hmin hfalse
    · exact ih (i + 1) _ p hp hfalse

theorem distributePass_bounds (per extra : Int) (i : Nat) (rem : Int)
    (cs : List ConsumerState) (hper : 0 ≤ per)
    (hcs : ∀ c ∈ cs, 0 ≤ c.buf.amount ∧ c.buf.amount ≤ c.buf.limit) :
    ∀ p ∈ (distributePass per extra i rem cs).2,
      0 ≤ p.1.buf.amount ∧ p.1.buf.amount ≤ p.1.buf.limit := by
  induction cs generalizing i rem with
  | nil => simp [distributePass]
  | cons c cs ih =>
    simp only [distributePass, List.mem_cons]
    rintro p (rfl | hp)
    · have hc := hcs c (List.mem_cons_self c cs)
      simp only [Buffer.add]
      constructor
      · have : (0 : Int) ≤ min (c.buf.limit - c.buf.amount)
            (per + (if (i : Int) < extra then 1 else 0)) := by
          apply le_min <;> [omega; split] <;> omega
        omega
      · have : min (c.buf.limit - c.buf.amount)
            (per + (if (i : Int) < extra then 1 else 0)) ≤ c.buf.limit - c.buf.amount :=
          min_le_left _ _
        omega
    · exact ih (i + 1) _ (fun d hd => hcs d (List.mem_cons_of_mem c hd)) p hp

theorem distributePass_limits (per extra : Int) (i : Nat) (rem : Int)
    (cs : List ConsumerState) :
    (distributePass per extra i rem cs).2.map (fun p => p.1.buf.limit)
      = cs.map (fun c => c.buf.limit) := by
  induction cs generalizing i rem with
  | nil => simp [distributePass]
  | cons c cs ih => simp [distributePass, Buffer.add, ih]

/-- If one pass retains every candidate (each accepted its full share) and
the pass was started with `per = remaining // k`, `extra = remaining % k`
for `k` the positive number of candidates, the whole of `remaining` was
assigned: the pass ends with `remaining = 0`. -/
theorem distributePass_allRetained_rem_zero (rem : Int) (cs : List ConsumerState)
    (hrem : 0 < rem) (hne : cs ≠ [])
    (h : ∀ p ∈ (distributePass (rem / (cs.length : Int)) (rem % (cs.length : Int)) 0 rem cs).2,
      p.2 = true) :
    (distributePass (rem / (cs.length : Int)) (rem % (cs.length : Int)) 0 rem cs).1 = 0 := by
  have hk : 0 < (cs.length : Int) := by
    have : cs.length ≠ 0 := fun hl => hne (List.length_eq_zero.mp hl)
    omega
  rw [distributePass_allRetained _ _ _ _ _ h]
  rw [sumShares_of_mem _ _ cs.length 0
    (by simpa using Int.emod_nonneg rem (by omega))
    (by simpa using le_of_lt (Int.emod_lt_of_pos rem hk))]
  have h1 := Int.ediv_add_emod rem (cs.length : Int)
  have h2 : rem / (cs.length : Int) * (cs.length : Int)
      = (cs.length : Int) * (rem / (cs.length : Int)) := mul_comm _ _
  push_cast
  omega

/-- One pass of the `while` loop of `Consumer.distribute`, with the
pass constants `amount_per_consumer = remaining // len(distributable)` and
`n_consumers_additional_resource = remaining % len(distributable)` of
prosumer.py lines 223-224 filled in. -/
def passResults (rem : Int) (cands : List ConsumerState) : Int × List (ConsumerState × Bool) :=
  distributePass (rem / (cands.length : Int)) (rem % (cands.length : Int)) 0 rem cands

theorem passResults_retained_le (rem : Int) (cands : List ConsumerState) :
    ((passResults rem cands).2.filter fun p => p.2).length ≤ cands.length := by
  calc ((passResults rem cands).2.filter fun p => p.2).length
      ≤ (passResults rem cands).2.length := List.length_filter_le _ _
    _ = cands.length := distributePass_length _ _ _ _ _

theorem passResults_allRetained_zero (rem : Int) (cands : List ConsumerState)
    (hrem : 0 < rem) (hne : cands ≠ [])
    (heq : ((passResults rem cands).2.filter fun p => p.2).length = cands.length) :
    (passResults rem cands).1 = 0 := by
  have hall : ∀ p ∈ (passResults rem cands).2, p.2 = true := by
    have hsub : List.Sublist ((passResults rem cands).2.filter fun p => p.2)
        (passResults rem cands).2 := List.filter_sublist _
    have hfe : (passResults rem cands).2.filter (fun p => p.2) = (passResults rem cands).2 :=
      hsub.eq_of_length (by rw [heq, passResults, distributePass_length])
    intro p hp
    simpa using List.filter_eq_self.mp hfe p hp
  exact distributePass_allRetained_rem_zero rem cands hrem hne hall

/-- Embeds the `while remaining > 0 and distributable:` loop of
`Consumer.distribute` (prosumer.py lines 222-241); called with the already
shuffled candidate list.  Returns the final `remaining` together with the
final states of all the consumers (the ones dropped from `distributable`
along the way, each in the pass order of the pass that dropped it, followed
by the final candidates). -/
def distributeLoop (rem : Int) (cands : List ConsumerState) : Int × List ConsumerState :=
  if h : 0 < rem ∧ cands ≠ [] then
    let pass := passResults rem cands
    let rest := distributeLoop pass.1 ((pass.2.filter fun p => p.2).map Prod.fst)
    (rest.1, ((pass.2.filter fun p => !p.2).map Prod.fst) ++ rest.2)
  else
    (rem, cands)
termination_by (cands.length, rem.toNat)
decreasing_by
  rcases h with ⟨hrem, hne⟩
  have hlen := passResults_retained_le rem cands
  rcases lt_or_eq_of_le hlen with hlt | heq
  · exact Prod.Lex.left _ _ (by rw [List.length_map]; exact hlt)
  · have hzero := passResults_allRetained_zero rem cands hrem hne heq
    have hm : (((passResults rem cands).2.filter fun p => p.2).map Prod.fst).length
        = cands.length := by rw [List.length_map]; exact heq
    rw [hm, hzero]
    exact Prod.Lex.right _ (by omega)

theorem distributeLoop_eq_pos (rem : Int) (cands : List ConsumerState)
    (h : 0 < rem) (hne : cands ≠ []) :
    distributeLoop rem cands =
      ((distributeLoop (passResults rem cands).1
          (((passResults rem cands).2.filter fun p => p.2).map Prod.fst)).1,
        (((passResults rem cands).2.filter fun p => !p.2).map Prod.fst)
          ++ (distributeLoop (passResults rem cands).1
            (((passResults rem cands).2.filter fun p => p.2).map Prod.fst)).2) := by
  rw [distributeLoop.eq_def, dif_pos ⟨h, hne⟩]

theorem distributeLoop_eq_exit (rem : Int) (cands : List ConsumerState)
    (h : ¬(0 < rem ∧ cands ≠ [])) :
    distributeLoop rem cands = (rem, cands) := by
  rw [distributeLoop.eq_def, dif_neg h]

theorem sumShares_div_mod (rem : Int) (k : Nat) (hk : k ≠ 0) :
    sumShares (rem / (k : Int)) (rem % (k : Int)) 0 k = rem := by
  have hkpos : 0 < (k : Int) := by omega
  rw [sumShares_of_mem _ _ k 0
    (by simpa using Int.emod_nonneg rem (by omega))
    (by simpa using le_of_lt (Int.emod_lt_of_pos rem hkpos))]
  have h1 := Int.ediv_add_emod rem (k : Int)
  have h2 : rem / (k : Int) * (k : Int) = (k : Int) * (rem / (k : Int)) := mul_comm _ _
  omega

theorem passResults_rem_nonneg (rem : Int) (cands : List ConsumerState)
    (hne : cands ≠ []) : 0 ≤ (passResults rem cands).1 := by
  have h := distributePass_rem_ge (rem / (cands.length : Int)) (rem % (cands.length : Int))
    0 rem cands
  rw [sumShares_div_mod rem cands.length (fun hl => hne (List.length_eq_zero.mp hl))] at h
  simpa [passResults] using h

/-- Splitting a sum over the pass results into the dropped part and the
retained part. -/
theorem sum_split (l : List (ConsumerState × Bool)) (f : ConsumerState → Int) :
    (((l.filter fun p => !p.2).map Prod.fst).map f).sum
      + (((l.filter fun p => p.2).map Prod.fst).map f).sum
      = (l.map fun p => f p.1).sum := by
  induction l with
  | nil => simp
  | cons p l ih =>
    rcases hb : p.2 with _ | _ <;>
      simp only [List.filter_cons, hb, Bool.not_false, Bool.not_true, if_pos, if_neg,
        List.map_cons, List.sum_cons, cond_true, cond_false] <;> simp_all <;> omega

/-- Along the whole distribution loop, units are conserved: the final
`remaining` plus the units sitting in the consumers' buffers equals the
initial `remaining` plus what the buffers initially held. -/
theorem distributeLoop_conserve (rem : Int) (cands : List ConsumerState) :
    (distributeLoop rem cands).1
      + ((distributeLoop rem cands).2.map fun c => c.buf.amount).sum
      = rem + (cands.map fun c => c.buf.amount).sum := by
  induction rem, cands using distributeLoop.induct with
  | case1 rem cands hg pass ih =>
    have hpassdef : pass = passResults rem cands := rfl
    rw [hpassdef] at ih
    rcases hg with ⟨hrem, hne⟩
    rw [distributeLoop_eq_pos rem cands hrem hne]
    simp only [List.map_append, List.sum_append]
    have hsplit := sum_split (passResults rem cands).2 (fun c => c.buf.amount)
    have hpass := distributePass_conserve (rem / (cands.length : Int))
      (rem % (cands.length : Int)) 0 rem cands
    simp only [passResults] at ih hsplit ⊢
    omega
  | case2 rem cands hg =>
    rw [distributeLoop_eq_exit rem cands hg]

theorem distributeLoop_limits_sum (rem : Int) (cands : List ConsumerState) :
    ((distributeLoop rem cands).2.map fun c => c.buf.limit).sum
      = (cands.map fun c => c.buf.limit).sum := by
  induction rem, cands using distributeLoop.induct with
  | case1 rem cands hg pass ih =>
    have hpassdef : pass = passResults rem cands := rfl
    rw [hpassdef] at ih
    rcases hg with ⟨hrem, hne⟩
    rw [distributeLoop_eq_pos rem cands hrem hne]
    simp only [List.map_append, List.sum_append]
    have hsplit := sum_split (passResults rem cands).2 (fun c => c.buf.limit)
    have hpass := distributePass_limits (rem / (cands.length : Int))
      (rem % (cands.length : Int)) 0 rem cands
    have hpass' : ((passResults rem cands).2.map fun p => p.1.buf.limit).sum
        = (cands.map fun c => c.buf.limit).sum := by
      rw [passResults]
      rw [show ((distributePass (rem / (cands.length : Int)) (rem % (cands.length : Int))
          0 rem cands).2.map fun p => p.1.buf.limit)
        = ((distributePass (rem / (cands.length : Int)) (rem % (cands.length : Int))
          0 rem cands).2.map (fun p => p.1.buf.limit)) from rfl, hpass]
    simp only [passResults] at ih hsplit hpass' ⊢
    omega
  | case2 rem cands hg =>
    rw [distributeLoop_eq_exit rem cands hg]

/-- All buffer bounds `0 ≤ amount ≤ limit` on consumer buffers are
preserved by the distribution loop (the per-consumer addition is clamped to
the available room). -/
theorem distributeLoop_bounds (rem : Int) (cands : List ConsumerState)
    (hrem : 0 ≤ rem)
    (hcs : ∀ c ∈ cands, 0 ≤ c.buf.amount ∧ c.buf.amount ≤ c.buf.limit) :
    ∀ p ∈ (distributeLoop rem cands).2, 0 ≤ p.buf.amount ∧ p.buf.amount ≤ p.buf.limit := by
  induction rem, cands using distributeLoop.induct with
  | case1 rem cands hg pass ih =>
    have hpassdef : pass = passResults rem cands := rfl
    rw [hpassdef] at ih
    rcases hg with ⟨hrempos, hne⟩
    have hk : (0 : Int) < (cands.length : Int) := by
      have : cands.length ≠ 0 := fun hl => hne (List.length_eq_zero.mp hl)
      omega
    have hper : 0 ≤ rem / (cands.length : Int) := Int.ediv_nonneg (le_of_lt hrempos) (by omega)
    have hout := distributePass_bounds (rem / (cands.length : Int))
      (rem % (cands.length : Int)) 0 rem cands hper hcs
    rw [distributeLoop_eq_pos rem cands hrempos hne]
    intro p hp
    rcases List.mem_append.mp hp with hdrop | hrest
    · rcases List.mem_map.mp hdrop with ⟨q, hq, rfl⟩
      exact hout q (List.mem_filter.mp hq).1
    · refine ih (passResults_rem_nonneg rem cands hne) ?_ p hrest
      intro c hc
      rcases List.mem_map.mp hc with ⟨q, hq, rfl⟩
      exact hout q (List.mem_filter.mp hq).1
  | case2 rem cands hg =>
    rw [distributeLoop_eq_exit rem cands hg]
    exact hcs

/-- When the loop finishes, either nothing is left over, or every consumer
it ever touched ended exactly full (a consumer is dropped from the
candidates only when the clamped addition filled it to its limit). -/
theorem distributeLoop_exit (rem : Int) (cands : List ConsumerState) (hrem : 0 ≤ rem) :
    (distributeLoop rem cands).1 = 0
      ∨ ∀ p ∈ (distributeLoop rem cands).2, p.buf.amount = p.buf.limit := by
  induction rem, cands using distributeLoop.induct with
  | case1 rem cands hg pass ih =>
    have hpassdef : pass = passResults rem cands := rfl
    rw [hpassdef] at ih
    rcases hg with ⟨hrempos, hne⟩
    rw [distributeLoop_eq_pos rem cands hrempos hne]
    rcases ih (passResults_rem_nonneg rem cands hne) with hzero | hfull
    · exact Or.inl hzero
    · right
      intro p hp
      rcases List.mem_append.mp hp with hdrop | hrest
      · rcases List.mem_map.mp hdrop with ⟨q, hq, rfl⟩
        have hmem := List.mem_filter.mp hq
        have hqfalse : q.2 = false := by
          have := hmem.2
          simpa using this
        exact distributePass_dropped_full _ _ _ _ _ q hmem.1 hqfalse
      · exact hfull p hrest
  | case2 rem cands hg =>
    rw [distributeLoop_eq_exit rem cands hg]
    rcases not_and_or.mp hg with hle | hcands
    · left; omega
    · right
      intro p hp
      rw [not_not.mp hcands] at hp
      simp at hp

/-- Embeds `Consumer.distribute` (prosumer.py lines 196-252), with the
`random.shuffle` factored out: `consumers` is the already-shuffled list of
consumer buffers (theorems quantify over all orders).  Starts every
consumer outside the `affected_consumers` set, runs the loop and then the
remainder clause of lines 247-252: if something remains and a remainder
buffer is given, `remainder_buffer.add(remaining)` decides the returned
boolean, else the boolean is `True`.  Returns the boolean, the final
consumer states and the (possibly updated) remainder buffer. -/
def distribute (amount : Int) (consumers : List Buffer) (remainder_buffer : Option Buffer) :
    Bool × List ConsumerState × Option Buffer :=
  let r := distributeLoop amount (consumers.map fun b => ⟨b, false⟩)
  match remainder_buffer with
  | some rb =>
    if r.1 ≠ 0 then ((rb.add r.1).2, r.2, some (rb.add r.1).1)
    else (true, r.2, some rb)
  | none => (true, r.2, none)

/-- Embeds class `Resource` of prosumer.py: its global buffer, the buffers
of its attached consumers (in the iteration order handed to the
Distributor; the Python `set` order plus the shuffle is quantified over in
the theorems) and the set `_request_events`, each event represented by its
is-set flag. -/
structure Resource where
  buffer : Buffer
  consumers : List Buffer
  requestEvents : List Bool
deriving Repr, DecidableEq

/-- Embeds `Resource.add` (prosumer.py lines 126-144): distribute to the
consumers with the global buffer as the remainder buffer; `notify` on the
affected consumers does not itself change any buffer (the event-signal
notifier only wakes the consumer's stream task). -/
def Resource.add (r : Resource) (amount : Int) : Bool × Resource :=
  let d := distribute amount r.consumers (some r.buffer)
  (d.1, { r with consumers := d.2.1.map ConsumerState.buf, buffer := d.2.2.getD r.buffer })

/-- Embeds `Resource.remove` (prosumer.py lines 146-166): remove from the
global buffer and, if the buffer went from full to not full, set every
registered request event. -/
def Resource.remove (r : Resource) (amount : Int) : Resource × Int :=
  let full_before := r.buffer.is_full
  let res := r.buffer.remove amount
  let events :=
    if full_before && !res.1.is_full then r.requestEvents.map fun _ => true
    else r.requestEvents
  ({ r with buffer := res.1, requestEvents := events }, res.2)

/-- Embeds `Resource.add_request_event` (prosumer.py lines 168-178): the
event is added to the set and set immediately when the buffer is not
full. -/
def Resource.add_request_event (r : Resource) (e : Bool) : Resource :=
  let e' := if !r.buffer.is_full then true else e
  { r with requestEvents := r.requestEvents ++ [e'] }

/-- Embeds `Resource.add_consumer` (prosumer.py lines 105-124): add the
consumer to the set and, when the global buffer is non-empty, run
`consumer.add(self._buffer.amount)` followed by
`self._buffer.remove(consumer.buffer.amount)`; `consumer.notify()` does not
change any buffer.  Returns the updated resource and the new consumer's
buffer. -/
def Resource.add_consumer (r : Resource) (c : Buffer) : Resource × Buffer :=
  if 0 < r.buffer.amount then
    let c' := (c.add r.buffer.amount).1
    let b' := (r.buffer.remove c'.amount).1
    ({ r with buffer := b', consumers := r.consumers ++ [c'] }, c')
  else
    ({ r with consumers := r.consumers ++ [c] }, c)

/-- Embeds `Consumer.remove` (prosumer.py lines 374-389):
`amount -= await self.resource.remove(amount); return await
self._buffer.remove(amount)`.  Takes the consumer's resource and local
buffer; returns the updated resource, the updated local buffer and the
call's return value. -/
def Consumer.remove (r : Resource) (cbuf : Buffer) (amount : Int) : Resource × Buffer × Int :=
  let res := Resource.remove r amount
  let amount' := amount - res.2
  let loc := cbuf.remove amount'
  (res.1, loc.1, loc.2)

/-- Process-wide state seen by consumer creation: the registry
`Consumer._consumers` (id paired with the consumer's buffer) and the target
resource. -/
structure ProcState where
  consumers : List (String × Buffer)
  resource : Resource
deriving Repr, DecidableEq

/-- Embeds the admin endpoint `POST /consumers/create`
(virdi/api/endpoints/consumers.py lines 14-19 and 38): if `Consumer.get`
finds the id, answer 409 without touching anything; otherwise create the
consumer with buffer limit 100 (`Consumer.create` attaches it to the
resource via `add_consumer`).  Returns the HTTP status and the new
state. -/
def consumers_create (s : ProcState) (cid : String) : Nat × ProcState :=
  if (s.consumers.map Prod.fst).contains cid then (409, s)
  else
    let ac := s.resource.add_consumer (Buffer.mk 100 0)
    (200, { consumers := s.consumers ++ [(cid, ac.2)], resource := ac.1 })

/-- Embeds `Client.add_consumer` (client.py lines 84-115): raise
`ValueError` when `Consumer.get(consumer_id)` already finds the id, before
any state is touched; otherwise create and record the consumer
(`Consumer.create` with its default buffer limit 100). -/
def Client.add_consumer (s : ProcState) (cid : String) : Except String ProcState :=
  if (s.consumers.map Prod.fst).contains cid then
    Except.error "already exists"
  else
    let ac := s.resource.add_consumer (Buffer.mk 100 0)
    Except.ok { consumers := s.consumers ++ [(cid, ac.2)], resource := ac.1 }

theorem distributeLoop_rem_nonneg (rem : Int) (cands : List ConsumerState)
    (hrem : 0 ≤ rem) : 0 ≤ (distributeLoop rem cands).1 := by
  induction rem, cands using distributeLoop.induct with
  | case1 rem cands hg pass ih =>
    have hpassdef : pass = passResults rem cands := rfl
    rw [hpassdef] at ih
    rcases hg with ⟨hrempos, hne⟩
    rw [distributeLoop_eq_pos rem cands hrempos hne]
    exact ih (passResults_rem_nonneg rem cands hne)
  | case2 rem cands hg =>
    rw [distributeLoop_eq_exit rem cands hg]
    exact hrem

/-- Closed form of one pass: the candidate at position `j` (processing
index `i + j`) is assigned the share `per + (1 if i+j < extra else 0)`,
receives the room-clamped `actual` of it, joins the affected set iff
`actual > 0`, and is retained iff `actual` equals the full share. -/
theorem distributePass_getElem (per extra : Int) :
    ∀ (cs : List ConsumerState) (i : Nat) (rem : Int) (j : Nat) (c : ConsumerState),
      cs[j]? = some c →
      (distributePass per extra i rem cs).2[j]? = some
        (⟨(c.buf.add (min (c.buf.limit - c.buf.amount)
              (per + (if ((i + j : Nat) : Int) < extra then 1 else 0)))).1,
          c.affected || decide (0 < min (c.buf.limit - c.buf.amount)
              (per + (if ((i + j : Nat) : Int) < extra then 1 else 0)))⟩,
         decide (min (c.buf.limit - c.buf.amount)
              (per + (if ((i + j : Nat) : Int) < extra then 1 else 0))
            = per + (if ((i + j : Nat) : Int) < extra then 1 else 0))) := by
  intro cs
  induction cs with
  | nil => intro i rem j c h; simp at h
  | cons c0 cs ih =>
    intro i rem j c h
    match j with
    | 0 =>
      simp only [List.getElem?_cons_zero, Option.some_inj] at h
      subst h
      simp [distributePass]
    | j + 1 =>
      simp only [List.getElem?_cons_succ] at h
      have hrec := ih (i + 1)
        (rem - min (c0.buf.limit - c0.buf.amount) (per + (if (i : Int) < extra then 1 else 0)))
        j c h
      simp only [distributePass, List.getElem?_cons_succ]
      rw [hrec]
      have hidx : ((i + 1 + j : Nat) : Int) = ((i + (j + 1) : Nat) : Int) := by push_cast; ring
      rw [hidx]

theorem resource_add_no_consumers (r : Resource) (h : r.consumers = []) (n : Int) :
    ((Resource.add r n).2).buffer.amount = r.buffer.amount + n
      ∧ (Resource.add r n).2.consumers = [] := by
  have hloop : distributeLoop n ([] : List ConsumerState) = (n, []) :=
    distributeLoop_eq_exit n [] (by simp)
  simp only [Resource.add, distribute, h, List.map_nil, hloop]
  by_cases hn : n = 0
  · subst hn; simp
  · simp [hn, Buffer.add]

theorem resource_add_fold_no_consumers (ns : List Int) :
    ∀ (r : Resource), r.consumers = [] →
      (ns.foldl (fun r n => (Resource.add r n).2) r).buffer.amount
        = r.buffer.amount + ns.sum := by
  induction ns with
  | nil => intro r _; simp
  | cons n ns ih =>
    intro r hr
    have h := resource_add_no_consumers r hr n
    simp only [List.foldl_cons, List.sum_cons]
    rw [ih _ h.2, h.1]
    ring

theorem sum_map_limit_const (v : Int) :
    ∀ (l : List Buffer), (∀ b ∈ l, b.limit = v) →
      (l.map fun b => b.limit).sum = l.length * v := by
  intro l
  induction l with
  | nil => intro _; simp
  | cons b l ih =>
    intro h
    simp only [List.map_cons, List.sum_cons, List.length_cons,
      h b (List.mem_cons_self b l), ih fun x hx => h x (List.mem_cons_of_mem b hx)]
    push_cast
    ring

theorem sum_map_amount_zero :
    ∀ (l : List Buffer), (∀ b ∈ l, b.amount = 0) → (l.map fun b => b.amount).sum = 0 := by
  intro l
  induction l with
  | nil => intro _; simp
  | cons b l ih =>
    intro h
    simp [h b (List.mem_cons_self b l), ih fun x hx => h x (List.mem_cons_of_mem b hx)]

theorem resource_add_eq (r : Resource) (n : Int) :
    Resource.add r n
      = ((distribute n r.consumers (some r.buffer)).1,
        { r with
          consumers := (distribute n r.consumers (some r.buffer)).2.1.map ConsumerState.buf,
          buffer := (distribute n r.consumers (some r.buffer)).2.2.getD r.buffer }) := rfl

theorem distribute_rem_zero (amount : Int) (consumers : List Buffer) (rb : Buffer)
    (h : (distributeLoop amount (consumers.map fun b => ⟨b, false⟩)).1 = 0) :
    distribute amount consumers (some rb)
      = (true, (distributeLoop amount (consumers.map fun b => ⟨b, false⟩)).2, some rb) := by
  unfold distribute
  simp [h]

theorem distribute_rem_spill (amount : Int) (consumers : List Buffer) (rb : Buffer)
    (h : (distributeLoop amount (consumers.map fun b => ⟨b, false⟩)).1 ≠ 0) :
    distribute amount consumers (some rb)
      = ((rb.add (distributeLoop amount (consumers.map fun b => ⟨b, false⟩)).1).2,
        (distributeLoop amount (consumers.map fun b => ⟨b, false⟩)).2,
        some (rb.add (distributeLoop amount (consumers.map fun b => ⟨b, false⟩)).1).1) := by
  unfold distribute
  simp [h]

theorem distributeLoop_concrete_step (rem : Int) (cands : List ConsumerState)
    (r1 : Int) (l1 : List (ConsumerState × Bool)) (h : 0 < rem) (hne : cands ≠ [])
    (hp : passResults rem cands = (r1, l1)) :
    distributeLoop rem cands
      = ((distributeLoop r1 ((l1.filter fun p => p.2).map Prod.fst)).1,
        ((l1.filter fun p => !p.2).map Prod.fst)
          ++ (distributeLoop r1 ((l1.filter fun p => p.2).map Prod.fst)).2) := by
  rw [distributeLoop_eq_pos rem cands h hne, hp]

/-- C1 counterexample: `Buffer.add` is not clamped at the limit.  On a
buffer of limit 10 holding 0, `add(15)` increases the amount by 15, not by
`min(15, limit - amount) = 10`, refuting the claimed contract at this
input. -/
theorem virdi_C1_cex :
    ¬ (((Buffer.mk 10 0).add 15).1.amount = 0 + min 15 ((10 : Int) - 0)) := by
  decide

/-- C1 (amended): `Buffer.add n` increases `amount` by exactly `n` (even
past the limit) and returns the boolean `amount + n < limit` (not-yet-full
after the add); consequently, for a Resource with no attached consumers and
an initially empty global buffer of limit `L`, after any sequence of
`Resource.add(n_i)` calls the stored amount equals `Σ n_i`, with no
clamping at `L`. -/
theorem virdi_C1 :
    (∀ (b : Buffer) (n : Int),
        (b.add n).1.amount = b.amount + n ∧ ((b.add n).2 = true ↔ b.amount + n < b.limit))
    ∧ ∀ (L : Int) (ns : List Int),
        ((ns.foldl (fun r n => (Resource.add r n).2)
            ⟨⟨L, 0⟩, [], []⟩ : Resource)).buffer.amount = ns.sum := by
  constructor
  · intro b n
    constructor
    · rfl
    · simp [Buffer.add]
  · intro L ns
    have h := resource_add_fold_no_consumers ns ⟨⟨L, 0⟩, [], []⟩ rfl
    simpa using h

/-- C2 counterexample: after `Buffer.add` the invariant `amount ≤ limit`
can be violated: a buffer of limit 10 holding 0 ends with amount 15 after
`add(15)`. -/
theorem virdi_C2_cex :
    ¬ (((Buffer.mk 10 0).add 15).1.amount ≤ ((Buffer.mk 10 0).add 15).1.limit) := by
  decide

/-- C2 (amended): `0 ≤ amount` is preserved by `add` and `remove` for
non-negative arguments, `remove` also preserves `amount ≤ limit`, and the
Distributor's room-clamped per-consumer additions preserve
`0 ≤ amount ≤ limit` on every consumer buffer; but `Buffer.add` itself adds
the full amount even past the limit (see the counterexample), so the
remainder spill during `Resource.add` and the drain in `add_consumer` can
leave a buffer above its limit. -/
theorem virdi_C2 :
    (∀ (b : Buffer) (n : Int), 0 ≤ b.amount → 0 ≤ n → 0 ≤ (b.add n).1.amount)
    ∧ (∀ (b : Buffer) (n : Int), 0 ≤ b.amount → 0 ≤ n → b.amount ≤ b.limit →
        0 ≤ (b.remove n).1.amount ∧ (b.remove n).1.amount ≤ (b.remove n).1.limit)
    ∧ ∀ (amount : Int) (consumers : List Buffer) (rb : Option Buffer),
        0 ≤ amount → (∀ b ∈ consumers, 0 ≤ b.amount ∧ b.amount ≤ b.limit) →
        ∀ p ∈ (distribute amount consumers rb).2.1,
          0 ≤ p.buf.amount ∧ p.buf.amount ≤ p.buf.limit := by
  refine ⟨?_, ?_, ?_⟩
  · intro b n h1 h2
    simp only [Buffer.add]
    omega
  · intro b n h1 h2 h3
    simp only [Buffer.remove]
    omega
  · intro amount consumers rb h1 h2
    have hinit : ∀ c ∈ consumers.map fun b => (⟨b, false⟩ : ConsumerState),
        0 ≤ c.buf.amount ∧ c.buf.amount ≤ c.buf.limit := by
      intro c hc
      rcases List.mem_map.mp hc with ⟨b, hb, rfl⟩
      exact h2 b hb
    have hloop := distributeLoop_bounds amount
      (consumers.map fun b => (⟨b, false⟩ : ConsumerState)) h1 hinit
    intro p hp
    apply hloop
    rcases rb with _ | rb
    · simpa [distribute] using hp
    · by_cases hz : (distributeLoop amount
          (consumers.map fun b => (⟨b, false⟩ : ConsumerState))).1 = 0 <;>
        simpa [distribute, hz] using hp

/-- C2 witness: the amended theorem applied at a buffer of limit 10 holding
3 with `add(2)`/`remove(2)`, and at a distribution of 1 unit over one empty
consumer of limit 5. -/
theorem virdi_C2_witness :
    0 ≤ ((Buffer.mk 10 3).add 2).1.amount
    ∧ (0 ≤ ((Buffer.mk 10 3).remove 2).1.amount
        ∧ ((Buffer.mk 10 3).remove 2).1.amount ≤ ((Buffer.mk 10 3).remove 2).1.limit)
    ∧ ∀ p ∈ (distribute 1 [Buffer.mk 5 0] none).2.1,
        0 ≤ p.buf.amount ∧ p.buf.amount ≤ p.buf.limit :=
  ⟨virdi_C2.1 (Buffer.mk 10 3) 2 (by decide) (by decide),
   virdi_C2.2.1 (Buffer.mk 10 3) 2 (by decide) (by decide) (by decide),
   virdi_C2.2.2 1 [Buffer.mk 5 0] none (by decide) (by decide)⟩

/-- C5: the code evaluated at the failing input.  With the resource's
global buffer holding 5 (limit 10) and an empty local buffer of limit 50,
`Consumer.remove(5)` drains the 5 units from the global buffer but returns
0 — only the locally removed part — instead of the total 5 the
specification promises. -/
theorem virdi_C5 :
    Consumer.remove ⟨⟨10, 5⟩, [], []⟩ (Buffer.mk 50 0) 5
      = (⟨⟨10, 0⟩, [], []⟩, Buffer.mk 50 0, 0)
    ∧ ((0 : Int) ≠ 5) := by
  constructor
  · decide
  · decide

/-- C7 counterexample: `add_consumer` does not clamp the drained amount to
the consumer's limit: with 80 units in the global buffer and a new consumer
of limit 50, the consumer's buffer ends at 80 > 50. -/
theorem virdi_C7_cex :
    ¬ (((Resource.add_consumer ⟨⟨100, 80⟩, [], []⟩ (Buffer.mk 50 0)).2).amount
        ≤ ((Resource.add_consumer ⟨⟨100, 80⟩, [], []⟩ (Buffer.mk 50 0)).2).limit) := by
  decide

/-- C7 (amended): with a non-empty global buffer, `attach_consumer(c)`
transfers the ENTIRE global buffer amount into `c`'s buffer — regardless of
`c.buffer.limit`, possibly exceeding it — removes from the global buffer
exactly the amount transferred (leaving it empty), appends `c` to the
consumer set, and then notifies `c`. -/
theorem virdi_C7 (r : Resource) (c : Buffer)
    (hg : 0 < r.buffer.amount) (hc : 0 ≤ c.amount) :
    (Resource.add_consumer r c).2.amount = c.amount + r.buffer.amount
    ∧ (Resource.add_consumer r c).2.limit = c.limit
    ∧ (Resource.add_consumer r c).1.buffer.amount = 0
    ∧ (Resource.add_consumer r c).1.consumers
        = r.consumers ++ [(Resource.add_consumer r c).2] := by
  obtain ⟨⟨bl, ba⟩, cons, evs⟩ := r
  obtain ⟨cl, ca⟩ := c
  simp only [Buffer.amount] at hg hc
  simp only [Resource.add_consumer, Buffer.add, Buffer.remove]
  rw [if_pos hg]
  refine ⟨rfl, rfl, ?_, rfl⟩
  simp only [Buffer.amount]
  omega

/-- C7 witness: the amended theorem at a global buffer holding 80 (limit
100) and a fresh empty consumer of limit 50. -/
theorem virdi_C7_witness :
    (Resource.add_consumer ⟨⟨100, 80⟩, [], []⟩ (Buffer.mk 50 0)).2.amount = 0 + 80
    ∧ (Resource.add_consumer ⟨⟨100, 80⟩, [], []⟩ (Buffer.mk 50 0)).2.limit = 50
    ∧ (Resource.add_consumer ⟨⟨100, 80⟩, [], []⟩ (Buffer.mk 50 0)).1.buffer.amount = 0
    ∧ (Resource.add_consumer ⟨⟨100, 80⟩, [], []⟩ (Buffer.mk 50 0)).1.consumers
        = [] ++ [(Resource.add_consumer ⟨⟨100, 80⟩, [], []⟩ (Buffer.mk 50 0)).2] :=
  virdi_C7 ⟨⟨100, 80⟩, [], []⟩ (Buffer.mk 50 0) (by decide) (by decide)

/-- C8: `Resource.remove` sets every registered demand event exactly when
the global buffer transitions from full to not full across the call and
leaves all events untouched otherwise, and `add_request_event` immediately
sets the event being registered when the buffer is not full. -/
theorem virdi_C8 (r : Resource) (n : Int) (e : Bool) :
    ((r.buffer.is_full = true ∧ (Resource.remove r n).1.buffer.is_full = false →
        (Resource.remove r n).1.requestEvents = r.requestEvents.map fun _ => true)
      ∧ (¬ (r.buffer.is_full = true ∧ (Resource.remove r n).1.buffer.is_full = false) →
        (Resource.remove r n).1.requestEvents = r.requestEvents))
    ∧ (r.buffer.is_full = false →
        (Resource.add_request_event r e).requestEvents = r.requestEvents ++ [true]) := by
  refine ⟨⟨?_, ?_⟩, ?_⟩
  · rintro ⟨h1, h2⟩
    simp only [Resource.remove] at h2 ⊢
    rw [if_pos]
    rw [h1, h2]
    rfl
  · intro h
    simp only [Resource.remove] at h ⊢
    rw [if_neg]
    intro hcontra
    rcases Bool.and_eq_true_iff.mp hcontra with ⟨hfull, hnot⟩
    exact h ⟨hfull, by simpa using hnot⟩
  · intro h
    simp [Resource.add_request_event, h]

/-- C8 witness: a full buffer (10/10) with one unset event; `remove(1)`
transitions it to not-full and sets the event; and registering an unset
event on a not-full buffer (0/10) records it already set. -/
theorem virdi_C8_witness :
    ((Resource.remove ⟨⟨10, 10⟩, [], [false]⟩ 1).1.requestEvents
        = ([false].map fun _ => true))
    ∧ (Resource.add_request_event ⟨⟨10, 0⟩, [], []⟩ false).requestEvents = [] ++ [true] :=
  ⟨(virdi_C8 ⟨⟨10, 10⟩, [], [false]⟩ 1 false).1.1 (by constructor <;> decide),
   (virdi_C8 ⟨⟨10, 0⟩, [], []⟩ 1 false).2 (by decide)⟩

/-- C9: creating a consumer whose id is already registered fails — with a
`ValueError` from `Client.add_consumer` and with HTTP 409 from the admin
create endpoint — and on that failure the process state (consumer registry,
resource, every buffer) is left completely unchanged. -/
theorem virdi_C9 (s : ProcState) (cid : String)
    (h : (s.consumers.map Prod.fst).contains cid = true) :
    consumers_create s cid = (409, s)
    ∧ Client.add_consumer s cid = Except.error "already exists" := by
  constructor
  · unfold consumers_create
    rw [if_pos h]
  · unfold Client.add_consumer
    rw [if_pos h]

/-- C9 witness: a state already containing consumer `c1`; both creation
paths refuse and return the state unchanged. -/
theorem virdi_C9_witness :
    consumers_create ⟨[("c1", Buffer.mk 100 0)], ⟨⟨10, 0⟩, [], []⟩⟩ "c1"
        = (409, ⟨[("c1", Buffer.mk 100 0)], ⟨⟨10, 0⟩, [], []⟩⟩)
    ∧ Client.add_consumer ⟨[("c1", Buffer.mk 100 0)], ⟨⟨10, 0⟩, [], []⟩⟩ "c1"
        = Except.error "already exists" :=
  virdi_C9 ⟨[("c1", Buffer.mk 100 0)], ⟨⟨10, 0⟩, [], []⟩⟩ "c1" (by decide)

/-- C3: characterization of the Distributor.  (a) In each pass over the
current candidates, the candidate at shuffled index `j` is assigned
`per + (1 if j < extra else 0)` with `per = remaining div k`,
`extra = remaining mod k`, receives the room-clamped amount, is marked
affected iff it accepted a positive amount, and is retained as a candidate
iff it accepted its full assigned share.  (b) The loop repeats on the
retained candidates with the reduced remainder.  (c) If at the end
`remaining ≠ 0` and a remainder buffer is present, `remaining` is added to
it and its not-yet-full signal is returned as `keep_coming`; when nothing
is spilled, `keep_coming = true`. -/
theorem virdi_C3 :
    (∀ (rem : Int) (cands : List ConsumerState) (j : Nat) (c : ConsumerState),
      cands[j]? = some c →
      (passResults rem cands).2[j]? = some
        (⟨(c.buf.add (min (c.buf.limit - c.buf.amount)
              (rem / (cands.length : Int)
                + (if (j : Int) < rem % (cands.length : Int) then 1 else 0)))).1,
          c.affected || decide (0 < min (c.buf.limit - c.buf.amount)
              (rem / (cands.length : Int)
                + (if (j : Int) < rem % (cands.length : Int) then 1 else 0)))⟩,
         decide (min (c.buf.limit - c.buf.amount)
              (rem / (cands.length : Int)
                + (if (j : Int) < rem % (cands.length : Int) then 1 else 0))
            = rem / (cands.length : Int)
                + (if (j : Int) < rem % (cands.length : Int) then 1 else 0))))
    ∧ (∀ (rem : Int) (cands : List ConsumerState), 0 < rem → cands ≠ [] →
        distributeLoop rem cands
          = ((distributeLoop (passResults rem cands).1
              (((passResults rem cands).2.filter fun p => p.2).map Prod.fst)).1,
            (((passResults rem cands).2.filter fun p => !p.2).map Prod.fst)
              ++ (distributeLoop (passResults rem cands).1
                (((passResults rem cands).2.filter fun p => p.2).map Prod.fst)).2))
    ∧ ∀ (amount : Int) (consumers : List Buffer) (rb : Buffer),
        ((distributeLoop amount (consumers.map fun b => ⟨b, false⟩)).1 ≠ 0 →
          distribute amount consumers (some rb)
            = ((rb.add (distributeLoop amount (consumers.map fun b => ⟨b, false⟩)).1).2,
              (distributeLoop amount (consumers.map fun b => ⟨b, false⟩)).2,
              some (rb.add (distributeLoop amount (consumers.map fun b => ⟨b, false⟩)).1).1))
        ∧ ((distributeLoop amount (consumers.map fun b => ⟨b, false⟩)).1 = 0 →
          distribute amount consumers (some rb)
            = (true, (distributeLoop amount (consumers.map fun b => ⟨b, false⟩)).2, some rb)) := by
  refine ⟨?_, ?_, ?_⟩
  · intro rem cands j c hc
    have h := distributePass_getElem (rem / (cands.length : Int)) (rem % (cands.length : Int))
      cands 0 rem j c hc
    simpa [passResults] using h
  · intro rem cands h hne
    exact distributeLoop_eq_pos rem cands h hne
  · intro amount consumers rb
    exact ⟨distribute_rem_spill amount consumers rb, distribute_rem_zero amount consumers rb⟩

/-- C3 witness: the pass over three empty consumers of limit 50 with
`remaining = 7` assigns 3 units to the first candidate (who accepts fully,
becomes affected, stays a candidate); and a distribution of 5 over no
consumers with a remainder buffer of limit 10 spills the 5 and reports the
buffer's not-yet-full signal. -/
theorem virdi_C3_witness :
    (passResults 7 [⟨⟨50, 0⟩, false⟩, ⟨⟨50, 0⟩, false⟩, ⟨⟨50, 0⟩, false⟩]).2[0]?
        = some (⟨⟨50, 3⟩, true⟩, true)
    ∧ distribute 5 [] (some (Buffer.mk 10 0)) = (true, [], some (Buffer.mk 10 5)) := by
  constructor
  · have h := virdi_C3.1 7 [⟨⟨50, 0⟩, false⟩, ⟨⟨50, 0⟩, false⟩, ⟨⟨50, 0⟩, false⟩]
      0 ⟨⟨50, 0⟩, false⟩ (by decide)
    exact h.trans (by decide)
  · have hloop : distributeLoop 5 (([] : List Buffer).map fun b => ⟨b, false⟩) = (5, []) := by
      rw [distributeLoop_eq_exit 5 _ (by simp)]
      rfl
    have h := (virdi_C3.2.2 5 [] (Buffer.mk 10 0)).1 (by rw [hloop]; decide)
    rw [hloop] at h
    exact h.trans (by decide)

/-- C6 counterexample: with the global buffer already full (10/10) and one
empty consumer of limit 50, `Resource.add(5)` is fully absorbed by the
consumer, nothing is spilled, and the call returns `keep_coming = true`
even though the global buffer finishes the call in a full state — refuting
the claimed "true iff not full at the end". -/
theorem virdi_C6_cex :
    (Resource.add ⟨⟨10, 10⟩, [Buffer.mk 50 0], []⟩ 5).1 = true
    ∧ ((Resource.add ⟨⟨10, 10⟩, [Buffer.mk 50 0], []⟩ 5).2).buffer.is_full = true := by
  have hloop : distributeLoop 5 (([Buffer.mk 50 0] : List Buffer).map fun b => ⟨b, false⟩)
      = (0, [⟨⟨50, 5⟩, true⟩]) := by
    rw [distributeLoop_concrete_step 5 _ 0 [(⟨⟨50, 5⟩, true⟩, true)]
      (by norm_num) (by simp) (by decide)]
    rw [distributeLoop_eq_exit 0 _ (by simp)]
    decide
  rw [resource_add_eq, distribute_rem_zero 5 [Buffer.mk 50 0] (Buffer.mk 10 10) (by rw [hloop])]
  decide

/-- C6 (amended): `Resource.add(n)` returns `true` iff either the
consumers absorbed everything (no remainder was spilled into the global
buffer — in which case `true` is returned even if the global buffer is
already full), or a remainder was spilled and the global buffer is strictly
below its limit afterwards. -/
theorem virdi_C6 (r : Resource) (n : Int) :
    (Resource.add r n).1 = true ↔
      ((distributeLoop n (r.consumers.map fun b => ⟨b, false⟩)).1 = 0
        ∨ ¬ ((Resource.add r n).2.buffer.is_full = true)) := by
  rw [resource_add_eq]
  by_cases hz : (distributeLoop n (r.consumers.map fun b => ⟨b, false⟩)).1 = 0
  · rw [distribute_rem_zero n r.consumers r.buffer hz]
    simp [hz]
  · rw [distribute_rem_spill n r.consumers r.buffer hz]
    simp only [hz, false_or, Buffer.add, Buffer.is_full, Option.getD_some,
      decide_eq_true_eq]
    omega

/-- C10: in any iteration of the distribution loop with `remaining > 0` and
a non-empty candidate list, the first candidate in shuffled order is
assigned a strictly positive share, and the pass either strictly shrinks
the candidate list or strictly decreases the remaining amount — so the loop
terminates. -/
theorem virdi_C10 (rem : Int) (cands : List ConsumerState)
    (hrem : 0 < rem) (hne : cands ≠ []) :
    (0 < rem / (cands.length : Int)
        + (if (0 : Int) < rem % (cands.length : Int) then 1 else 0))
    ∧ (((passResults rem cands).2.filter fun p => p.2).length < cands.length
        ∨ (passResults rem cands).1 < rem) := by
  have hk : (0 : Int) < (cands.length : Int) := by
    have : cands.length ≠ 0 := fun hl => hne (List.length_eq_zero.mp hl)
    omega
  constructor
  · have hper : 0 ≤ rem / (cands.length : Int) := Int.ediv_nonneg (le_of_lt hrem) (by omega)
    have hdm := Int.ediv_add_emod rem (cands.length : Int)
    by_cases hx : (0 : Int) < rem % (cands.length : Int)
    · rw [if_pos hx]
      omega
    · rw [if_neg hx]
      have hmod : rem % (cands.length : Int) = 0 := by
        have := Int.emod_nonneg rem (show (cands.length : Int) ≠ 0 by omega)
        omega
      rcases eq_or_lt_of_le hper with heq | hlt
      · exfalso
        rw [← heq] at hdm
        simp at hdm
        omega
      · omega
  · rcases lt_or_eq_of_le (passResults_retained_le rem cands) with hlt | heq
    · exact Or.inl hlt
    · refine Or.inr ?_
      rw [passResults_allRetained_zero rem cands hrem hne heq]
      exact hrem

/-- C10 witness: the termination disjunction at `remaining = 5` and a
single empty consumer of limit 50. -/
theorem virdi_C10_witness :
    (0 < (5 : Int) / (([⟨⟨50, 0⟩, false⟩] : List ConsumerState).length : Int)
        + (if (0 : Int) < (5 : Int) % (([⟨⟨50, 0⟩, false⟩] : List ConsumerState).length : Int)
            then 1 else 0))
    ∧ (((passResults 5 [⟨⟨50, 0⟩, false⟩]).2.filter fun p => p.2).length
          < ([⟨⟨50, 0⟩, false⟩] : List ConsumerState).length
        ∨ (passResults 5 [⟨⟨50, 0⟩, false⟩]).1 < 5) :=
  virdi_C10 5 [⟨⟨50, 0⟩, false⟩] (by norm_num) (by simp)

/-- C4: if every attached consumer starts empty with limit `Lc` and
`0 ≤ n ≤ k·Lc` for `k` the number of consumers, `Resource.add(n)` leaves
the global buffer empty and the consumers' buffer amounts sum to exactly
`n`; concretely, for three empty consumers of limit 50 (in any shuffled
order) `add(7)` gives the first-in-shuffle 3 units and the others 2 — each
receives 2 or 3, none receives 0, and nothing reaches the global buffer. -/
theorem virdi_C4 :
    (∀ (Lc L n : Int) (r : Resource),
      r.buffer = ⟨L, 0⟩ → (∀ b ∈ r.consumers, b = ⟨Lc, 0⟩) →
      0 ≤ n → n ≤ (r.consumers.length : Int) * Lc →
      (Resource.add r n).2.buffer.amount = 0
        ∧ (((Resource.add r n).2.consumers).map fun b => b.amount).sum = n)
    ∧ ∀ (cs : List Buffer), cs.Perm (List.replicate 3 (Buffer.mk 50 0)) →
        distribute 7 cs (some (Buffer.mk 100 0))
          = (true, [⟨⟨50, 3⟩, true⟩, ⟨⟨50, 2⟩, true⟩, ⟨⟨50, 2⟩, true⟩],
            some (Buffer.mk 100 0)) := by
  constructor
  · intro Lc L n r hbuf hcons hn hnk
    have hsum0 : ((r.consumers.map fun b => (⟨b, false⟩ : ConsumerState)).map
        fun c => c.buf.amount).sum = 0 := by
      apply List.sum_eq_zero
      intro x hx
      rcases List.mem_map.mp hx with ⟨c, hc, rfl⟩
      rcases List.mem_map.mp hc with ⟨b, hb, rfl⟩
      rw [hcons b hb]
    have hconsv := distributeLoop_conserve n (r.consumers.map fun b => ⟨b, false⟩)
    have hnn := distributeLoop_rem_nonneg n (r.consumers.map fun b => ⟨b, false⟩) hn
    have hlimsum : ((distributeLoop n (r.consumers.map fun b => ⟨b, false⟩)).2.map
        fun c => c.buf.limit).sum = (r.consumers.length : Int) * Lc := by
      rw [distributeLoop_limits_sum]
      have hmm : ((r.consumers.map fun b => (⟨b, false⟩ : ConsumerState)).map
          fun c => c.buf.limit) = r.consumers.map fun b => b.limit := by
        rw [List.map_map]
        rfl
      rw [hmm, sum_map_limit_const Lc r.consumers fun b hb => by rw [hcons b hb]]
    have hzero : (distributeLoop n (r.consumers.map fun b => ⟨b, false⟩)).1 = 0 := by
      rcases distributeLoop_exit n (r.consumers.map fun b => ⟨b, false⟩) hn with h0 | hfull
      · exact h0
      · have hsum_eq : ((distributeLoop n (r.consumers.map fun b => ⟨b, false⟩)).2.map
            fun c => c.buf.amount).sum
            = ((distributeLoop n (r.consumers.map fun b => ⟨b, false⟩)).2.map
              fun c => c.buf.limit).sum := by
          rw [List.map_congr_left fun c hc => hfull c hc]
        omega
    refine ⟨?_, ?_⟩
    · rw [resource_add_eq, distribute_rem_zero n r.consumers r.buffer hzero]
      rw [hbuf]
      rfl
    · rw [resource_add_eq, distribute_rem_zero n r.consumers r.buffer hzero]
      simp only [List.map_map]
      have hcomp : (((distributeLoop n (r.consumers.map fun b => ⟨b, false⟩)).2.map
          ((fun b => b.amount) ∘ ConsumerState.buf))).sum
          = ((distributeLoop n (r.consumers.map fun b => ⟨b, false⟩)).2.map
            fun c => c.buf.amount).sum := rfl
      rw [hcomp]
      omega
  · intro cs hperm
    have hcs : cs = List.replicate 3 (Buffer.mk 50 0) := by
      rw [List.eq_replicate_iff]
      refine ⟨by simpa using hperm.length_eq, ?_⟩
      intro b hb
      exact List.eq_of_mem_replicate (hperm.mem_iff.mp hb)
    subst hcs
    have hloop : distributeLoop 7 ((List.replicate 3 (Buffer.mk 50 0)).map fun b => ⟨b, false⟩)
        = (0, [⟨⟨50, 3⟩, true⟩, ⟨⟨50, 2⟩, true⟩, ⟨⟨50, 2⟩, true⟩]) := by
      rw [distributeLoop_concrete_step 7 _ 0
        [(⟨⟨50, 3⟩, true⟩, true), (⟨⟨50, 2⟩, true⟩, true), (⟨⟨50, 2⟩, true⟩, true)]
        (by norm_num) (by decide) (by decide)]
      rw [distributeLoop_eq_exit 0 _ (by simp)]
      decide
    rw [distribute_rem_zero 7 _ (Buffer.mk 100 0) (by rw [hloop]), hloop]

/-- C4 witness: one empty consumer of limit 50 on a resource with limit 100
receives all 40 units of `add(40)` with the global buffer left empty, and
the identity shuffle of the three-consumer scenario gives the 3/2/2
split. -/
theorem virdi_C4_witness :
    ((Resource.add ⟨⟨100, 0⟩, [Buffer.mk 50 0], []⟩ 40).2.buffer.amount = 0
      ∧ (((Resource.add ⟨⟨100, 0⟩, [Buffer.mk 50 0], []⟩ 40).2.consumers).map
          fun b => b.amount).sum = 40)
    ∧ distribute 7 (List.replicate 3 (Buffer.mk 50 0)) (some (Buffer.mk 100 0))
        = (true, [⟨⟨50, 3⟩, true⟩, ⟨⟨50, 2⟩, true⟩, ⟨⟨50, 2⟩, true⟩],
          some (Buffer.mk 100 0)) :=
  ⟨virdi_C4.1 50 100 40 ⟨⟨100, 0⟩, [Buffer.mk 50 0], []⟩ rfl (by decide) (by decide) (by decide),
   virdi_C4.2 (List.replicate 3 (Buffer.mk 50 0)) (List.Perm.refl _)⟩

end Virdi
